import Mathlib

/-!
Verification of the App_graph repository's core: graph construction
(three builder variants), edge/node deduplication, start-node resolution,
the highlight resolver, and the layered layout engine.

The TypeScript sources embedded here:
* `src/unnamed/part_000` — trace-list builder (`buildGraph (cases : TestCase[])`);
* `src/src/App.tsx` — explicit-record builder (`buildGraph (graph : AppGraph)`)
  and the highlight resolver (`buildHighlightSet`);
* `src/unnamed/part_001` — explicit-record builder with `metadata.entryPoint`
  start-node resolution and edge labels.

JavaScript `Map` objects are embedded as association lists in insertion
order (`Map.set` overwrites the value of an existing key but keeps its
position; iteration follows insertion order), and JavaScript `Set` as a
first-occurrence-deduplicated list.
-/

namespace AppGraph

/-- Canonical edge id, the TypeScript template literal
`source + "->" + target` used by every builder and by the highlighter. -/
def mkEdgeId (s t : String) : String := s ++ "->" ++ t

/-- First-occurrence deduplication of a string list, given ids already
`seen`; models iteration order of a JavaScript `Set` built from a list. -/
def dedupAux (seen : List String) : List String → List String
  | [] => []
  | x :: xs => if x ∈ seen then dedupAux seen xs else x :: dedupAux (x :: seen) xs

/-- First-occurrence deduplication of arbitrary entries by a string key:
keeps the first entry of each key, in input order. -/
def dedupByAux {α : Type} (key : α → String) (seen : List String) :
    List α → List α
  | [] => []
  | b :: bs =>
      if key b ∈ seen then dedupByAux key seen bs
      else b :: dedupByAux key (key b :: seen) bs

theorem dedupAux_subset (seen : List String) (l : List String) :
    ∀ x ∈ dedupAux seen l, x ∈ l := by
  induction l generalizing seen with
  | nil => intro x hx; simp [dedupAux] at hx
  | cons a as ih =>
      intro x hx
      by_cases ha : a ∈ seen
      · simp only [dedupAux, if_pos ha] at hx
        exact List.mem_cons_of_mem _ (ih seen x hx)
      · simp only [dedupAux, if_neg ha] at hx
        rcases List.mem_cons.mp hx with hx | hx
        · exact hx ▸ List.mem_cons_self _ _
        · exact List.mem_cons_of_mem _ (ih _ x hx)

theorem mem_dedupAux_of_mem (seen : List String) (l : List String) (x : String)
    (hx : x ∈ l) (hseen : x ∉ seen) : x ∈ dedupAux seen l := by
  induction l generalizing seen with
  | nil => cases hx
  | cons a as ih =>
      by_cases ha : a ∈ seen
      · simp only [dedupAux, if_pos ha]
        rcases List.mem_cons.mp hx with hx | hx
        · exact absurd (hx ▸ ha) hseen
        · exact ih _ hx hseen
      · simp only [dedupAux, if_neg ha]
        rcases List.mem_cons.mp hx with hx | hx
        · exact hx ▸ List.mem_cons_self _ _
        · by_cases hxa : x = a
          · exact hxa ▸ List.mem_cons_self _ _
          · refine List.mem_cons_of_mem _ (ih _ hx ?_)
            intro hmem
            rcases List.mem_cons.mp hmem with h | h
            · exact hxa h
            · exact hseen h

theorem not_mem_dedupAux_of_mem_seen (seen : List String) (l : List String)
    (x : String) (hx : x ∈ seen) : x ∉ dedupAux seen l := by
  induction l generalizing seen with
  | nil => intro h; simp [dedupAux] at h
  | cons a as ih =>
      by_cases ha : a ∈ seen
      · simp only [dedupAux, if_pos ha]
        exact ih seen hx
      · simp only [dedupAux, if_neg ha]
        intro h
        rcases List.mem_cons.mp h with h | h
        · exact ha (h ▸ hx)
        · exact ih (a :: seen) (List.mem_cons_of_mem _ hx) h

theorem dedupAux_nodup (seen : List String) (l : List String) :
    (dedupAux seen l).Nodup := by
  induction l generalizing seen with
  | nil => simp [dedupAux]
  | cons a as ih =>
      by_cases ha : a ∈ seen
      · simpa [dedupAux, if_pos ha] using ih seen
      · simp only [dedupAux, if_neg ha]
        exact List.nodup_cons.mpr
          ⟨not_mem_dedupAux_of_mem_seen _ _ _ (List.mem_cons_self _ _), ih _⟩

theorem dedupByAux_subset {α : Type} (key : α → String) (seen : List String)
    (l : List α) : ∀ b ∈ dedupByAux key seen l, b ∈ l := by
  induction l generalizing seen with
  | nil => intro b hb; simp [dedupByAux] at hb
  | cons a as ih =>
      intro b hb
      by_cases ha : key a ∈ seen
      · simp only [dedupByAux, if_pos ha] at hb
        exact List.mem_cons_of_mem _ (ih seen b hb)
      · simp only [dedupByAux, if_neg ha] at hb
        rcases List.mem_cons.mp hb with hb | hb
        · exact hb ▸ List.mem_cons_self _ _
        · exact List.mem_cons_of_mem _ (ih _ b hb)

theorem dedupByAux_map_key {α : Type} (key : α → String) (seen : List String)
    (l : List α) :
    (dedupByAux key seen l).map key = dedupAux seen (l.map key) := by
  induction l generalizing seen with
  | nil => simp [dedupByAux, dedupAux]
  | cons a as ih =>
      by_cases ha : key a ∈ seen
      · simp [dedupByAux, dedupAux, if_pos ha, ih]
      · simp [dedupByAux, dedupAux, if_neg ha, ih]

/-- JavaScript `Map.prototype.set`: replace the value in place when the key
is present, append the new entry otherwise. -/
def mapSet {α : Type} (m : List (String × α)) (k : String) (v : α) :
    List (String × α) :=
  if k ∈ m.map Prod.fst then
    m.map (fun p => if p.1 = k then (k, v) else p)
  else m ++ [(k, v)]

/-- JavaScript `if (!map.has(k)) map.set(k, v)`: insert only when absent. -/
def insertIfAbsent {α : Type} (m : List (String × α)) (k : String) (v : α) :
    List (String × α) :=
  if k ∈ m.map Prod.fst then m else m ++ [(k, v)]

theorem mapSet_keys {α : Type} (m : List (String × α)) (k : String) (v : α) :
    (mapSet m k v).map Prod.fst =
      if k ∈ m.map Prod.fst then m.map Prod.fst else m.map Prod.fst ++ [k] := by
  unfold mapSet
  by_cases hk : k ∈ m.map Prod.fst
  · simp only [if_pos hk, List.map_map]
    refine List.map_congr_left ?_
    intro p _
    by_cases hp : p.1 = k
    · simp [Function.comp, hp]
    · simp [Function.comp, hp]
  · simp [if_neg hk]

theorem mapSet_entry_mem {α : Type} (m : List (String × α)) (k : String)
    (v : α) : ∀ e ∈ mapSet m k v, e ∈ m ∨ e = (k, v) := by
  intro e he
  unfold mapSet at he
  by_cases hk : k ∈ m.map Prod.fst
  · simp only [if_pos hk] at he
    rcases List.mem_map.mp he with ⟨p, hp, hpe⟩
    by_cases hpk : p.1 = k
    · right; simp [hpk] at hpe; exact hpe.symm
    · left; simp [hpk] at hpe; exact hpe ▸ hp
  · simp only [if_neg hk, List.mem_append] at he
    rcases he with h | h
    · exact Or.inl h
    · right; simpa using h

theorem dedupAux_congr (seen₁ seen₂ : List String) (l : List String)
    (h : ∀ x, x ∈ seen₁ ↔ x ∈ seen₂) :
    dedupAux seen₁ l = dedupAux seen₂ l := by
  induction l generalizing seen₁ seen₂ with
  | nil => rfl
  | cons a as ih =>
      by_cases ha : a ∈ seen₁
      · rw [dedupAux, dedupAux, if_pos ha, if_pos ((h a).mp ha)]
        exact ih _ _ h
      · rw [dedupAux, dedupAux, if_neg ha, if_neg (fun hc => ha ((h a).mpr hc))]
        refine congrArg _ (ih _ _ ?_)
        intro x
        simp only [List.mem_cons]
        exact or_congr Iff.rfl (h x)

theorem dedupByAux_congr {α : Type} (key : α → String)
    (seen₁ seen₂ : List String) (l : List α)
    (h : ∀ x, x ∈ seen₁ ↔ x ∈ seen₂) :
    dedupByAux key seen₁ l = dedupByAux key seen₂ l := by
  induction l generalizing seen₁ seen₂ with
  | nil => rfl
  | cons a as ih =>
      by_cases ha : key a ∈ seen₁
      · rw [dedupByAux, dedupByAux, if_pos ha, if_pos ((h _).mp ha)]
        exact ih _ _ h
      · rw [dedupByAux, dedupByAux, if_neg ha,
          if_neg (fun hc => ha ((h _).mpr hc))]
        refine congrArg _ (ih _ _ ?_)
        intro x
        simp only [List.mem_cons]
        exact or_congr Iff.rfl (h x)

/-- Fold of `if (!map.has(key b)) map.set(key b, mk b)` over a stream of
observations, exactly the edge-insertion loop of all three builders. -/
def foldInsert {β α : Type} (key : β → String) (mk : β → α)
    (m₀ : List (String × α)) (l : List β) : List (String × α) :=
  l.foldl (fun m b => insertIfAbsent m (key b) (mk b)) m₀

theorem foldInsert_eq {β α : Type} (key : β → String) (mk : β → α)
    (m₀ : List (String × α)) (l : List β) :
    foldInsert key mk m₀ l =
      m₀ ++ (dedupByAux key (m₀.map Prod.fst) l).map (fun b => (key b, mk b)) := by
  induction l generalizing m₀ with
  | nil => simp [foldInsert, dedupByAux]
  | cons b bs ih =>
      by_cases hb : key b ∈ m₀.map Prod.fst
      · rw [foldInsert, List.foldl_cons]
        show foldInsert key mk (insertIfAbsent m₀ (key b) (mk b)) bs = _
        rw [insertIfAbsent, if_pos hb, ih, dedupByAux, if_pos hb]
      · rw [foldInsert, List.foldl_cons]
        show foldInsert key mk (insertIfAbsent m₀ (key b) (mk b)) bs = _
        rw [insertIfAbsent, if_neg hb, ih, dedupByAux, if_neg hb]
        rw [List.append_assoc]
        refine congrArg _ ?_
        have hseen : ∀ x, x ∈ (m₀ ++ [(key b, mk b)]).map Prod.fst ↔
            x ∈ key b :: m₀.map Prod.fst := by
          intro x
          simp only [List.map_append, List.mem_append, List.map_cons,
            List.map_nil, List.mem_cons, List.mem_singleton, List.not_mem_nil,
            or_false]
          exact Or.comm
        rw [dedupByAux_congr key _ _ bs hseen]
        simp

theorem foldInsert_vals {β α : Type} (key : β → String) (mk : β → α)
    (l : List β) :
    (foldInsert key mk [] l).map Prod.snd = (dedupByAux key [] l).map mk := by
  rw [foldInsert_eq]
  simp [List.map_map, Function.comp]

theorem foldInsert_keys {β α : Type} (key : β → String) (mk : β → α)
    (l : List β) :
    (foldInsert key mk [] l).map Prod.fst = dedupAux [] (l.map key) := by
  rw [foldInsert_eq]
  simp only [List.map_nil, List.nil_append, List.map_map]
  rw [show (Prod.fst ∘ fun b => (key b, mk b)) = key from rfl]
  exact dedupByAux_map_key key [] l

/-- Fold of unconditional `map.set(key b, mk b)` over a stream, exactly the
node-insertion loop of the two explicit-record builders. -/
def foldSet {β α : Type} (key : β → String) (mk : β → α)
    (m₀ : List (String × α)) (l : List β) : List (String × α) :=
  l.foldl (fun m b => mapSet m (key b) (mk b)) m₀

theorem foldSet_keys {β α : Type} (key : β → String) (mk : β → α)
    (m₀ : List (String × α)) (l : List β) :
    (foldSet key mk m₀ l).map Prod.fst =
      m₀.map Prod.fst ++ dedupAux (m₀.map Prod.fst) (l.map key) := by
  induction l generalizing m₀ with
  | nil => simp [foldSet, dedupAux]
  | cons b bs ih =>
      rw [foldSet, List.foldl_cons]
      show (foldSet key mk (mapSet m₀ (key b) (mk b)) bs).map Prod.fst = _
      by_cases hb : key b ∈ m₀.map Prod.fst
      · rw [ih, mapSet_keys, if_pos hb, List.map_cons, dedupAux, if_pos hb]
      · rw [ih, mapSet_keys, if_neg hb, List.map_cons, dedupAux, if_neg hb]
        rw [List.append_assoc]
        refine congrArg _ ?_
        have hseen : ∀ x, x ∈ m₀.map Prod.fst ++ [key b] ↔
            x ∈ key b :: m₀.map Prod.fst := by
          intro x
          constructor
          · intro hx
            rcases List.mem_append.mp hx with h | h
            · exact List.mem_cons_of_mem _ h
            · exact List.mem_cons.mpr (Or.inl (List.mem_singleton.mp h))
          · intro hx
            rcases List.mem_cons.mp hx with h | h
            · exact List.mem_append.mpr (Or.inr (List.mem_singleton.mpr h))
            · exact List.mem_append.mpr (Or.inl h)
        rw [dedupAux_congr _ _ _ hseen]
        simp

theorem foldSet_entry_inv {β α : Type} (key : β → String) (mk : β → α)
    (m₀ : List (String × α)) (l : List β) (P : String × α → Prop)
    (h₀ : ∀ e ∈ m₀, P e) (hl : ∀ b ∈ l, P (key b, mk b)) :
    ∀ e ∈ foldSet key mk m₀ l, P e := by
  induction l generalizing m₀ with
  | nil => exact h₀
  | cons b bs ih =>
      intro e he
      rw [foldSet, List.foldl_cons] at he
      refine ih (mapSet m₀ (key b) (mk b)) ?_
        (fun b' hb' => hl b' (List.mem_cons_of_mem _ hb')) e he
      intro e' he'
      rcases mapSet_entry_mem _ _ _ e' he' with h | h
      · exact h₀ e' h
      · exact h ▸ hl b (List.mem_cons_self _ _)

theorem countP_vals_eq_one {α : Type} (m : List (String × α)) (p : α → Bool)
    (id₀ : String) (hinv : ∀ e ∈ m, p e.2 = true ↔ e.1 = id₀)
    (hnd : (m.map Prod.fst).Nodup) :
    (m.map Prod.snd).countP p = if id₀ ∈ m.map Prod.fst then 1 else 0 := by
  induction m with
  | nil => simp
  | cons e m ih =>
      have hinv' : ∀ e' ∈ m, p e'.2 = true ↔ e'.1 = id₀ :=
        fun e' he' => hinv e' (List.mem_cons_of_mem _ he')
      have hnd' : (m.map Prod.fst).Nodup := (List.nodup_cons.mp hnd).2
      have hhead : e.1 ∉ m.map Prod.fst := (List.nodup_cons.mp hnd).1
      rw [List.map_cons, List.map_cons, List.countP_cons, ih hinv' hnd']
      by_cases he : e.1 = id₀
      · have hp : p e.2 = true := (hinv e (List.mem_cons_self _ _)).mpr he
        have hno : id₀ ∉ m.map Prod.fst := he ▸ hhead
        rw [if_neg hno, if_pos (List.mem_cons.mpr (Or.inl he.symm)), hp]
        simp
      · have hp : p e.2 = false := by
          rcases Bool.eq_false_or_eq_true (p e.2) with h | h
          · exact absurd ((hinv e (List.mem_cons_self _ _)).mp h) he
          · exact h
        rw [hp]
        by_cases hm : id₀ ∈ m.map Prod.fst
        · rw [if_pos hm, if_pos (List.mem_cons.mpr (Or.inr hm))]
          simp
        · have hni : id₀ ∉ e.1 :: m.map Prod.fst := by
            intro hc
            rcases List.mem_cons.mp hc with hc | hc
            · exact he hc.symm
            · exact hm hc
          rw [if_neg hm, if_neg hni]
          simp

theorem countP_vals_eq_zero {α : Type} (m : List (String × α)) (p : α → Bool)
    (hinv : ∀ e ∈ m, p e.2 = false) :
    (m.map Prod.snd).countP p = 0 := by
  induction m with
  | nil => simp
  | cons e m ih =>
      rw [List.map_cons, List.countP_cons,
        hinv e (List.mem_cons_self _ _),
        ih (fun e' he' => hinv e' (List.mem_cons_of_mem _ he'))]
      simp

/-! ## Visual output types

The reactflow `Node` objects built by every variant carry
`id`, `data.label`, `position` (always `{x: 0, y: 0}` before layout) and a
`className` that is one of two fixed strings chosen by the `isStart` test;
we record that choice as the boolean `isStart`. The reactflow `Edge`
objects carry `id`, `source`, `target` (plus constant `animated`/`style`
fields, and in `part_001` a `label` copied from the input edge). -/

structure VNode where
  id : String
  label : String
  isStart : Bool
  deriving DecidableEq, Repr

structure VEdge where
  id : String
  source : String
  target : String
  deriving DecidableEq, Repr

structure VEdgeL where
  id : String
  source : String
  target : String
  label : String
  deriving DecidableEq, Repr

/-! ## Trace-list builder (`src/unnamed/part_000`)

`buildGraph (cases: TestCase[])` walks every step of every test case,
inserting one node per distinct `step.page` (first occurrence wins) and one
edge per consecutive pair of distinct pages inside a single case,
deduplicated across the whole input by the id `page -> nextPage`.
The node-insertion and edge-insertion maps never interact, so the
per-step interleaving of the source loop is embedded as two independent
folds over the same streams: all steps in order, and all consecutive
distinct page pairs in order. -/

structure Step where
  index : Nat
  page : String
  action : String
  deriving DecidableEq, Repr

structure TestCase where
  id : String
  name : String
  steps : List Step
  deriving DecidableEq, Repr

/-- `cases[0]?.steps[0]?.page` — the start page reference. -/
def startPageOf (cases : List TestCase) : Option String :=
  (cases.head?.bind (fun c => c.steps.head?)).map Step.page

/-- The consecutive pairs `(step.page, steps[index+1].page)` of one case
with the self-loop guard `next.page !== step.page` applied. -/
def tracePairs : List Step → List (String × String)
  | [] => []
  | [_] => []
  | s :: t :: rest =>
      (if t.page ≠ s.page then [(s.page, t.page)] else []) ++
        tracePairs (t :: rest)

/-- The node a step inserts: `{id: page, data: {label: page}, ...}` with the
start styling iff `step.page === startPage`. -/
def mkTraceNode (startPage : Option String) (s : Step) : VNode :=
  { id := s.page, label := s.page, isStart := startPage = some s.page }

/-- The edge a consecutive distinct page pair inserts. -/
def mkPairEdge (p : String × String) : VEdge :=
  { id := mkEdgeId p.1 p.2, source := p.1, target := p.2 }

/-- The canonical graph built by `buildGraph` of `src/unnamed/part_000`
(before `createLayout` decorates the nodes with positions). -/
def buildGraphTraces (cases : List TestCase) : List VNode × List VEdge :=
  let startPage := startPageOf cases
  let pages := foldInsert Step.page (mkTraceNode startPage) []
    (cases.flatMap TestCase.steps)
  let edgeMap := foldInsert (fun p => mkEdgeId p.1 p.2) mkPairEdge []
    (cases.flatMap (fun c => tracePairs c.steps))
  (pages.map Prod.snd, edgeMap.map Prod.snd)

/-! ## Explicit-record builder (`src/src/App.tsx`)

`buildGraph (graph: AppGraph)` with `startNode = graph.nodes[0]?.id`；
nodes go through `nodeMap.set(node.id, ...)` (unconditional overwrite),
edges through `if (!edgeMap.has(id)) edgeMap.set(id, ...)`. Input nodes
also carry display-only fields (`type`, `personas`, `environments`,
`coverage`, `artifacts`, `relatedTestSuites`) that the builder never
reads; they are omitted from the embedding. -/

structure NodeA where
  id : String
  label : String
  deriving DecidableEq, Repr

structure EdgeA where
  source : String
  target : String
  deriving DecidableEq, Repr

structure GraphA where
  nodes : List NodeA
  edges : List EdgeA
  deriving DecidableEq, Repr

/-- `graph.nodes[0]?.id`. -/
def startNodeA (g : GraphA) : Option String := g.nodes.head?.map NodeA.id

def mkNodeA (startNode : Option String) (n : NodeA) : VNode :=
  { id := n.id, label := n.label, isStart := startNode = some n.id }

def mkEdgeA (e : EdgeA) : VEdge :=
  { id := mkEdgeId e.source e.target, source := e.source, target := e.target }

/-- The canonical graph built by `buildGraph` of `src/src/App.tsx`
(before `createLayout`). -/
def buildGraphA (g : GraphA) : List VNode × List VEdge :=
  let start := startNodeA g
  let nodeMap := foldSet NodeA.id (mkNodeA start) [] g.nodes
  let edgeMap := foldInsert (fun e => mkEdgeId e.source e.target) mkEdgeA []
    g.edges
  (nodeMap.map Prod.snd, edgeMap.map Prod.snd)

/-! ## Explicit-record builder with metadata (`src/unnamed/part_001`)

Same shape as the App.tsx builder, but the start node is resolved as
`graph.nodes.find((node) => node.metadata.entryPoint)?.id ?? graph.nodes[0]?.id`
(JavaScript truthiness on the metadata value) and output edges copy the
input edge's `label`. Metadata values are
`string | number | boolean | string[]`; numbers in the repository's data
are embedded as integers. The optional `conditions` record of input edges
is opaque passthrough never read by the builder and is omitted. -/

inductive MetaVal where
  | str (s : String)
  | num (n : Int)
  | bool (b : Bool)
  | strs (l : List String)
  deriving DecidableEq, Repr

/-- JavaScript truthiness of a metadata value (arrays are always truthy). -/
def MetaVal.truthy : MetaVal → Bool
  | .str s => s ≠ ""
  | .num n => n ≠ 0
  | .bool b => b
  | .strs _ => true

structure NodeB where
  id : String
  label : String
  metadata : List (String × MetaVal)
  deriving DecidableEq, Repr

structure EdgeB where
  source : String
  target : String
  type : String
  label : String
  deriving DecidableEq, Repr

structure GraphB where
  environment : String
  persona : String
  version : String
  nodes : List NodeB
  edges : List EdgeB
  deriving DecidableEq, Repr

/-- `node.metadata.entryPoint` is truthy. -/
def entryTruthy (n : NodeB) : Bool :=
  match n.metadata.find? (fun p => p.1 = "entryPoint") with
  | some p => p.2.truthy
  | none => false

/-- `graph.nodes.find((node) => node.metadata.entryPoint)?.id ?? graph.nodes[0]?.id`. -/
def startNodeB (g : GraphB) : Option String :=
  match (g.nodes.find? entryTruthy).map NodeB.id with
  | some i => some i
  | none => g.nodes.head?.map NodeB.id

def mkNodeB (startNode : Option String) (n : NodeB) : VNode :=
  { id := n.id, label := n.label, isStart := startNode = some n.id }

def mkEdgeB (e : EdgeB) : VEdgeL :=
  { id := mkEdgeId e.source e.target, source := e.source, target := e.target,
    label := e.label }

/-- The canonical graph built by `buildGraph` of `src/unnamed/part_001`
(before `createLayout`). -/
def buildGraphB (g : GraphB) : List VNode × List VEdgeL :=
  let start := startNodeB g
  let nodeMap := foldSet NodeB.id (mkNodeB start) [] g.nodes
  let edgeMap := foldInsert (fun e => mkEdgeId e.source e.target) mkEdgeB []
    g.edges
  (nodeMap.map Prod.snd, edgeMap.map Prod.snd)

/-! ## Highlight resolver (`src/src/App.tsx`, `buildHighlightSet`)

```
const buildHighlightSet = (path: string[]) => {
  const nodeIds = new Set(path);
  const edgeIds = new Set<string>();
  path.forEach((nodeId, index) => {
    const next = path[index + 1];
    if (next) { edgeIds.add(nodeId + "->" + next); }
  });
  return { nodeIds, edgeIds };
};
```

Note that the resolver receives only the path — it never consults the
graph. `if (next)` is a truthiness guard: it is false both past the end of
the path and when the successor is the empty string. -/

structure HighlightSet where
  nodeIds : List String
  edgeIds : List String
  deriving DecidableEq, Repr

/-- All consecutive pairs `(path[i], path[i+1])` of a path. -/
def consecPairs : List String → List (String × String)
  | [] => []
  | [_] => []
  | a :: b :: rest => (a, b) :: consecPairs (b :: rest)

/-- The edge ids the `forEach` loop adds: one per consecutive pair whose
successor is truthy (non-empty). -/
def hlEdgeIds : List String → List String
  | [] => []
  | [_] => []
  | a :: b :: rest =>
      (if b ≠ "" then [mkEdgeId a b] else []) ++ hlEdgeIds (b :: rest)

def buildHighlightSet (path : List String) : HighlightSet :=
  { nodeIds := dedupAux [] path, edgeIds := dedupAux [] (hlEdgeIds path) }

/-- Render-time application of a highlight (`App.tsx`, the `nodes`/`edges`
`useMemo` blocks): a base node/edge receives the highlight styling iff its
id is a member of the corresponding highlight set. These are the graph
elements that are actually emphasized. -/
def emphasizedNodeIds (g : GraphA) (path : List String) : List String :=
  (((buildGraphA g).1.filter
    (fun n => decide (n.id ∈ (buildHighlightSet path).nodeIds))).map VNode.id)

def emphasizedEdgeIds (g : GraphA) (path : List String) : List String :=
  (((buildGraphA g).2.filter
    (fun e => decide (e.id ∈ (buildHighlightSet path).edgeIds))).map VEdge.id)

/-! ## Layered layout engine

`createLayout` in the sources delegates to the external `dagre` library
(`rankdir: 'LR'`, `nodesep: 32`, `ranksep: 48`, node extent 180×48) and
then converts the returned centers to top-left anchors. The library's
algorithm is not part of this repository; the spec re-specifies it as an
owned Sugiyama-style layered algorithm (§4.2, §9), which is what the
following definitions model.

Modelled from the spec: the three-phase layered layout — longest-path
ranking over the graph with depth-first back edges removed, barycenter
ordering within each rank seeded by the previous rank (ties and isolated
nodes keep insertion order), and coordinate assignment with rank as the
horizontal (left-to-right) axis and order-within-rank as the vertical
axis, spaced by the fixed gaps plus the fixed node extent. -/

def nodeWidth : Int := 180
def nodeHeight : Int := 48
def nodesep : Int := 32
def ranksep : Int := 48

/-- Forward adjacency of the edge list. -/
def adjOf (edges : List VEdge) (u : String) : List String :=
  (edges.filter (fun e => decide (e.source = u))).map VEdge.target

/-- Fuel-bounded depth-first search from `u`. `visited` holds every node
ever entered, `path` the nodes on the current DFS stack; an edge into a
node on the stack is recorded as a back edge. Returns the enlarged
visited set and the back edges found. -/
def dfsAux (adj : String → List String) :
    Nat → String → List String → List String →
      List String × List (String × String)
  | 0, _, visited, _ => (visited, [])
  | fuel + 1, u, visited, path =>
      (adj u).foldl
        (fun acc v =>
          if v ∈ path then (acc.1, acc.2 ++ [(u, v)])
          else if v ∈ acc.1 then acc
          else
            let r := dfsAux adj fuel v (v :: acc.1) (v :: path)
            (r.1, acc.2 ++ r.2))
        (visited, [])

/-- Back edges of the graph, found by depth-first traversal started from
every node in insertion order. -/
def backEdgesOf (nodes : List VNode) (edges : List VEdge) :
    List (String × String) :=
  let fuel := nodes.length + edges.length + 1
  (nodes.foldl
    (fun acc n =>
      if n.id ∈ acc.1 then acc
      else
        let r := dfsAux (adjOf edges) fuel n.id (n.id :: acc.1) [n.id]
        (r.1, acc.2 ++ r.2))
    ([], [])).2

/-- The edges kept for ranking: every edge that is not a back edge
(self-loops are back edges of the trivial cycle and drop out too). -/
def rankingEdges (nodes : List VNode) (edges : List VEdge) : List VEdge :=
  edges.filter
    (fun e => decide ((e.source, e.target) ∉ backEdgesOf nodes edges))

/-- One relaxation sweep of longest-path ranking: every kept edge pushes
its target below its source. -/
def relaxRanks (es : List VEdge) (rs : List (String × Nat)) :
    List (String × Nat) :=
  es.foldl
    (fun rs e =>
      let ru := ((rs.find? (fun p => decide (p.1 = e.source))).map
        Prod.snd).getD 0
      rs.map (fun p => if p.1 = e.target then (p.1, max p.2 (ru + 1)) else p))
    rs

/-- Longest-path ranks: `nodes.length` relaxation sweeps over the acyclic
edge set starting from rank 0 everywhere (enough sweeps to converge on a
directed acyclic graph). -/
def ranksOf (nodes : List VNode) (edges : List VEdge) :
    List (String × Nat) :=
  (List.range nodes.length).foldl
    (fun rs _ => relaxRanks (rankingEdges nodes edges) rs)
    (nodes.map (fun n => (n.id, 0)))

/-- The rank of a node id (0 for ids never ranked). -/
def rankOf (nodes : List VNode) (edges : List VEdge) (i : String) : Nat :=
  (((ranksOf nodes edges).find? (fun p => decide (p.1 = i))).map
    Prod.snd).getD 0

/-- The largest rank any node received. -/
def maxRankOf (nodes : List VNode) (edges : List VEdge) : Nat :=
  nodes.foldl (fun m n => max m (rankOf nodes edges n.id)) 0

/-- The rank groups in ascending rank order, each listing its nodes in
insertion order, paired with their rank. -/
def rankGroups (nodes : List VNode) (edges : List VEdge) :
    List (Nat × List VNode) :=
  (List.range (maxRankOf nodes edges + 1)).map
    (fun r => (r, nodes.filter (fun n => decide (rankOf nodes edges n.id = r))))

/-- Barycenter key of a node relative to the previous rank's order: the
sum of the positions of its predecessors that sit in the previous rank,
paired with their number (as an exact rational `sum / count`; nodes with
no predecessor there sort like barycenter 0). -/
def baryKey (edges : List VEdge) (prev : List String) (n : VNode) :
    Nat × Nat :=
  let preds := ((edges.filter (fun e => decide (e.target = n.id))).map
    VEdge.source).filter (fun s => decide (s ∈ prev))
  if preds.length = 0 then (0, 1)
  else ((preds.map (fun s => prev.indexOf s)).foldl (· + ·) 0, preds.length)

/-- Barycenter comparison by cross multiplication. -/
def baryLe (edges : List VEdge) (prev : List String) (a b : VNode) : Bool :=
  let ka := baryKey edges prev a
  let kb := baryKey edges prev b
  decide (ka.1 * kb.2 ≤ kb.1 * ka.2)

/-- Stable insertion of `x` into `l`: `x` goes after every element that
compares `le` to it, so ties keep insertion order. -/
def insertStable {α : Type} (le : α → α → Bool) (x : α) : List α → List α
  | [] => [x]
  | y :: ys => if le y x then y :: insertStable le x ys else x :: y :: ys

/-- Stable insertion sort by a boolean comparison: elements are inserted
left to right, each after the already-placed elements it ties with. -/
def sortStable {α : Type} (le : α → α → Bool) (l : List α) : List α :=
  l.foldl (fun acc x => insertStable le x acc) []

/-- One downward ordering sweep: each rank is sorted by barycenter against
the already-ordered previous rank. -/
def orderSweep (edges : List VEdge) (prev : List String) :
    List (Nat × List VNode) → List (Nat × List VNode)
  | [] => []
  | (r, g) :: gs =>
      let og := sortStable (baryLe edges prev) g
      (r, og) :: orderSweep edges (og.map VNode.id) gs

/-- A column of placed nodes: index `i` within the rank goes to the
vertical center `nodeHeight/2 + i * (nodeHeight + nodesep)`; the rank `r`
goes to the horizontal center `nodeWidth/2 + r * (nodeWidth + ranksep)`. -/
structure Placed where
  id : String
  x : Int
  y : Int
  deriving DecidableEq, Repr

def xCenter (r : Nat) : Int := nodeWidth / 2 + r * (nodeWidth + ranksep)

def yCenter (i : Nat) : Int := nodeHeight / 2 + i * (nodeHeight + nodesep)

def placeColumn (r : Nat) : Nat → List VNode → List Placed
  | _, [] => []
  | i, n :: ns => ⟨n.id, xCenter r, yCenter i⟩ :: placeColumn r (i + 1) ns

def placeAll : List (Nat × List VNode) → List Placed
  | [] => []
  | (r, g) :: gs => placeColumn r 0 g ++ placeAll gs

/-- The center position of every node after the three layout phases. -/
def layoutCenters (nodes : List VNode) (edges : List VEdge) : List Placed :=
  placeAll (orderSweep edges [] (rankGroups nodes edges))

/-- `createLayout`: every node of the canonical graph decorated with its
top-left anchor, center minus half the fixed extent, exactly as the
source converts dagre's centers
(`x: x - nodeWidth / 2, y: y - nodeHeight / 2`). -/
def createLayout (nodes : List VNode) (edges : List VEdge) :
    List (VNode × Int × Int) :=
  nodes.map (fun n =>
    match (layoutCenters nodes edges).find? (fun p => decide (p.id = n.id)) with
    | some p => (n, p.x - nodeWidth / 2, p.y - nodeHeight / 2)
    | none => (n, 0, 0))

/-! ## Generic lemmas for the layout proofs -/

theorem insertStable_perm {α : Type} (le : α → α → Bool) (x : α)
    (l : List α) : List.Perm (insertStable le x l) (x :: l) := by
  induction l with
  | nil => exact List.Perm.refl _
  | cons y ys ih =>
      by_cases h : le y x = true
      · rw [insertStable, if_pos h]
        exact ((ih.cons y).trans (List.Perm.swap x y ys))
      · rw [insertStable, if_neg h]

theorem sortStable_perm {α : Type} (le : α → α → Bool) (l : List α) :
    List.Perm (sortStable le l) l := by
  suffices h : ∀ (l acc : List α),
      List.Perm (l.foldl (fun acc x => insertStable le x acc) acc) (acc ++ l) by
    simpa using h l []
  intro l
  induction l with
  | nil => intro acc; simp
  | cons x xs ih =>
      intro acc
      rw [List.foldl_cons]
      refine (ih (insertStable le x acc)).trans ?_
      refine (((insertStable_perm le x acc).append_right xs).trans ?_)
      exact (List.perm_middle).symm

theorem foldl_max_le_init (f : List Nat) (a : Nat) :
    a ≤ f.foldl (fun m y => max m y) a := by
  induction f generalizing a with
  | nil => exact Nat.le_refl a
  | cons b bs ih =>
      exact Nat.le_trans (Nat.le_max_left a b) (ih (max a b))

theorem mem_le_foldl_max (f : List Nat) (a : Nat) (x : Nat) (hx : x ∈ f) :
    x ≤ f.foldl (fun m y => max m y) a := by
  induction f generalizing a with
  | nil => cases hx
  | cons b bs ih =>
      rcases List.mem_cons.mp hx with h | h
      · subst h
        exact Nat.le_trans (Nat.le_max_right a x) (foldl_max_le_init bs _)
      · exact ih _ h

theorem flatten_filter_cons_perm {α : Type} (f : α → Nat) (x : α)
    (xs : List α) (rs : List Nat) (hnd : rs.Nodup) (hx : f x ∈ rs) :
    List.Perm
      ((rs.map (fun r => (x :: xs).filter (fun y => decide (f y = r)))).flatten)
      (x :: (rs.map (fun r => xs.filter (fun y => decide (f y = r)))).flatten) := by
  induction rs with
  | nil => cases hx
  | cons r rs ih =>
      have hnd' : rs.Nodup := (List.nodup_cons.mp hnd).2
      have hr : r ∉ rs := (List.nodup_cons.mp hnd).1
      by_cases hfr : f x = r
      · have hfilter : (x :: xs).filter (fun y => decide (f y = r)) =
            x :: xs.filter (fun y => decide (f y = r)) := by
          simp [List.filter_cons, hfr]
        have hrest : rs.map (fun r' => (x :: xs).filter
              (fun y => decide (f y = r'))) =
            rs.map (fun r' => xs.filter (fun y => decide (f y = r'))) := by
          refine List.map_congr_left ?_
          intro r' hr'
          have : f x ≠ r' := fun hc => hr ((hfr ▸ hc) ▸ hr')
          simp [List.filter_cons, this]
        rw [List.map_cons, List.map_cons, hfilter, hrest, List.flatten_cons,
          List.flatten_cons, List.cons_append]
      · have hx' : f x ∈ rs := by
          rcases List.mem_cons.mp hx with h | h
          · exact absurd h hfr
          · exact h
        have hfilter : (x :: xs).filter (fun y => decide (f y = r)) =
            xs.filter (fun y => decide (f y = r)) := by
          simp [List.filter_cons, hfr]
        rw [List.map_cons, List.map_cons, hfilter, List.flatten_cons,
          List.flatten_cons]
        refine ((ih hnd' hx').append_left _).trans ?_
        exact List.perm_middle

theorem flatten_filter_range_perm {α : Type} (f : α → Nat) (l : List α)
    (n : Nat) (h : ∀ x ∈ l, f x < n) :
    List.Perm
      (((List.range n).map (fun r => l.filter (fun y => decide (f y = r)))).flatten)
      l := by
  induction l with
  | nil =>
      have : (List.range n).map
          (fun r => ([] : List α).filter (fun y => decide (f y = r))) =
          (List.range n).map (fun _ => ([] : List α)) := by
        simp
      rw [this]
      have hempty : ∀ (rs : List Nat),
          ((rs.map (fun _ => ([] : List α))).flatten) = [] := by
        intro rs
        induction rs with
        | nil => rfl
        | cons r rs ih => simp [ih]
      rw [hempty]
  | cons x xs ih =>
      have hx : f x ∈ List.range n :=
        List.mem_range.mpr (h x (List.mem_cons_self _ _))
      refine (flatten_filter_cons_perm f x xs (List.range n)
        (List.nodup_range n) hx).trans ?_
      exact (ih (fun y hy => h y (List.mem_cons_of_mem _ hy))).cons x

/-! ## Properties of the placement phase -/

theorem placeColumn_ids (r : Nat) (i : Nat) (l : List VNode) :
    (placeColumn r i l).map Placed.id = l.map VNode.id := by
  induction l generalizing i with
  | nil => rfl
  | cons n ns ih => simp [placeColumn, ih]

theorem placeColumn_mem_y (r : Nat) (i : Nat) (l : List VNode)
    (p : Placed) (hp : p ∈ placeColumn r i l) :
    ∃ k, i ≤ k ∧ p.y = yCenter k := by
  induction l generalizing i with
  | nil => cases hp
  | cons n ns ih =>
      rcases List.mem_cons.mp hp with h | h
      · exact ⟨i, Nat.le_refl i, by rw [h]⟩
      · rcases ih (i + 1) h with ⟨k, hk, hy⟩
        exact ⟨k, Nat.le_trans (Nat.le_succ i) hk, hy⟩

theorem yCenter_sep (j k : Nat) (h : j < k) :
    yCenter j + nodeHeight < yCenter k := by
  unfold yCenter nodeHeight nodesep
  have hjk : (j : Int) + 1 ≤ (k : Int) := by exact_mod_cast h
  omega

theorem placeColumn_sep (r : Nat) (i : Nat) (l : List VNode)
    (p q : Placed) (hp : p ∈ placeColumn r i l) (hq : q ∈ placeColumn r i l)
    (hne : p.id ≠ q.id) :
    p.y + nodeHeight < q.y ∨ q.y + nodeHeight < p.y := by
  induction l generalizing i with
  | nil => cases hp
  | cons n ns ih =>
      rcases List.mem_cons.mp hp with h₁ | h₁ <;>
        rcases List.mem_cons.mp hq with h₂ | h₂
      · exact absurd (h₁ ▸ h₂ ▸ rfl) hne
      · left
        rcases placeColumn_mem_y r (i + 1) ns q h₂ with ⟨k, hk, hy⟩
        rw [h₁, hy]
        exact yCenter_sep i k (Nat.lt_of_lt_of_le (Nat.lt_succ_self i) hk)
      · right
        rcases placeColumn_mem_y r (i + 1) ns p h₁ with ⟨k, hk, hy⟩
        rw [h₂, hy]
        exact yCenter_sep i k (Nat.lt_of_lt_of_le (Nat.lt_succ_self i) hk)
      · exact ih (i + 1) h₁ h₂

theorem placeAll_ids (gs : List (Nat × List VNode)) :
    (placeAll gs).map Placed.id =
      (gs.map (fun rg => rg.2.map VNode.id)).flatten := by
  induction gs with
  | nil => rfl
  | cons rg gs ih =>
      obtain ⟨r, g⟩ := rg
      simp [placeAll, placeColumn_ids, ih]

theorem placeAll_mem (gs : List (Nat × List VNode)) (p : Placed)
    (hp : p ∈ placeAll gs) : ∃ rg ∈ gs, p ∈ placeColumn rg.1 0 rg.2 := by
  induction gs with
  | nil => cases hp
  | cons rg gs ih =>
      obtain ⟨r, g⟩ := rg
      rcases List.mem_append.mp hp with h | h
      · exact ⟨(r, g), List.mem_cons_self _ _, h⟩
      · rcases ih h with ⟨rg', hrg', hmem⟩
        exact ⟨rg', List.mem_cons_of_mem _ hrg', hmem⟩

theorem orderSweep_mem (edges : List VEdge) (prev : List String)
    (gs : List (Nat × List VNode)) (rg : Nat × List VNode)
    (h : rg ∈ orderSweep edges prev gs) :
    ∃ rg₀ ∈ gs, rg.1 = rg₀.1 ∧ List.Perm rg.2 rg₀.2 := by
  induction gs generalizing prev with
  | nil => cases h
  | cons rg₀ gs ih =>
      obtain ⟨r, g⟩ := rg₀
      rcases List.mem_cons.mp h with h | h
      · refine ⟨(r, g), List.mem_cons_self _ _, ?_, ?_⟩
        · rw [h]
        · rw [h]
          exact sortStable_perm _ g
      · rcases ih _ h with ⟨rg', hrg', heq, hperm⟩
        exact ⟨rg', List.mem_cons_of_mem _ hrg', heq, hperm⟩

theorem orderSweep_fst (edges : List VEdge) (prev : List String)
    (gs : List (Nat × List VNode)) :
    (orderSweep edges prev gs).map Prod.fst = gs.map Prod.fst := by
  induction gs generalizing prev with
  | nil => rfl
  | cons rg gs ih =>
      obtain ⟨r, g⟩ := rg
      simp [orderSweep, ih]

theorem orderSweep_flatten_perm (edges : List VEdge) (prev : List String)
    (gs : List (Nat × List VNode)) :
    List.Perm
      ((orderSweep edges prev gs).map (fun rg => rg.2.map VNode.id)).flatten
      ((gs.map (fun rg => rg.2.map VNode.id)).flatten) := by
  induction gs generalizing prev with
  | nil => exact List.Perm.refl _
  | cons rg gs ih =>
      obtain ⟨r, g⟩ := rg
      simp only [orderSweep, List.map_cons, List.flatten_cons]
      exact ((sortStable_perm _ g).map VNode.id).append (ih _)

theorem rank_le_maxRank (nodes : List VNode) (edges : List VEdge)
    (n : VNode) (hn : n ∈ nodes) :
    rankOf nodes edges n.id ≤ maxRankOf nodes edges := by
  unfold maxRankOf
  have hfold : ∀ (l : List VNode) (a : Nat),
      l.foldl (fun m n => max m (rankOf nodes edges n.id)) a =
        (l.map (fun n => rankOf nodes edges n.id)).foldl
          (fun m y => max m y) a := by
    intro l
    induction l with
    | nil => intro a; rfl
    | cons m ms ih => intro a; simp [ih]
  rw [hfold]
  exact mem_le_foldl_max _ 0 _ (List.mem_map.mpr ⟨n, hn, rfl⟩)

theorem mem_rankGroups (nodes : List VNode) (edges : List VEdge)
    (rg : Nat × List VNode) (h : rg ∈ rankGroups nodes edges) :
    rg.2 = nodes.filter (fun n => decide (rankOf nodes edges n.id = rg.1)) := by
  rcases List.mem_map.mp h with ⟨r, _, hrg⟩
  rw [← hrg]

theorem rankGroups_fst (nodes : List VNode) (edges : List VEdge) :
    (rankGroups nodes edges).map Prod.fst =
      List.range (maxRankOf nodes edges + 1) := by
  unfold rankGroups
  rw [List.map_map]
  have : (Prod.fst ∘ fun r => (r,
      nodes.filter (fun n => decide (rankOf nodes edges n.id = r)))) = id := by
    funext r
    rfl
  rw [this, List.map_id]

/-- Every placed point of the layout lies in the ordered column of its own
rank, and its id is the id of a node of that rank group. -/
theorem layoutCenters_mem (nodes : List VNode) (edges : List VEdge)
    (p : Placed) (hp : p ∈ layoutCenters nodes edges) :
    ∃ rg ∈ orderSweep edges [] (rankGroups nodes edges),
      p ∈ placeColumn rg.1 0 rg.2 ∧ rankOf nodes edges p.id = rg.1 := by
  rcases placeAll_mem _ p hp with ⟨rg, hrg, hmem⟩
  refine ⟨rg, hrg, hmem, ?_⟩
  have hid : p.id ∈ rg.2.map VNode.id := by
    rw [← placeColumn_ids rg.1 0 rg.2]
    exact List.mem_map.mpr ⟨p, hmem, rfl⟩
  rcases List.mem_map.mp hid with ⟨n, hn, hnid⟩
  rcases orderSweep_mem edges [] _ rg hrg with ⟨rg₀, hrg₀, hfst, hperm⟩
  have hn₀ : n ∈ rg₀.2 := hperm.mem_iff.mp hn
  rw [mem_rankGroups nodes edges rg₀ hrg₀] at hn₀
  have := (List.mem_filter.mp hn₀).2
  rw [hfst, ← hnid]
  exact of_decide_eq_true this

/-- Two placed points of different ids but equal rank are vertically
separated by more than the node extent. -/
theorem layoutCenters_sep (nodes : List VNode) (edges : List VEdge)
    (p q : Placed) (hp : p ∈ layoutCenters nodes edges)
    (hq : q ∈ layoutCenters nodes edges) (hne : p.id ≠ q.id)
    (hrk : rankOf nodes edges p.id = rankOf nodes edges q.id) :
    p.y + nodeHeight < q.y ∨ q.y + nodeHeight < p.y := by
  rcases layoutCenters_mem nodes edges p hp with ⟨rg, hrg, hmem, hrank⟩
  rcases layoutCenters_mem nodes edges q hq with ⟨rg', hrg', hmem', hrank'⟩
  have hfst : rg.1 = rg'.1 := by rw [← hrank, ← hrank', hrk]
  have hnd : ((orderSweep edges [] (rankGroups nodes edges)).map
      Prod.fst).Nodup := by
    rw [orderSweep_fst, rankGroups_fst]
    exact List.nodup_range _
  have hrg_eq : rg = rg' := List.inj_on_of_nodup_map hnd hrg hrg' hfst
  subst hrg_eq
  exact placeColumn_sep rg.1 0 rg.2 p q hmem hmem' hne

/-- The ids that receive a position are exactly the graph's node ids, as a
permutation. -/
theorem layoutCenters_ids_perm (nodes : List VNode) (edges : List VEdge) :
    List.Perm ((layoutCenters nodes edges).map Placed.id)
      (nodes.map VNode.id) := by
  unfold layoutCenters
  rw [placeAll_ids]
  refine (orderSweep_flatten_perm edges [] (rankGroups nodes edges)).trans ?_
  have hgroups : (rankGroups nodes edges).map (fun rg => rg.2.map VNode.id) =
      ((List.range (maxRankOf nodes edges + 1)).map
        (fun r => nodes.filter
          (fun n => decide (rankOf nodes edges n.id = r)))).map
        (List.map VNode.id) := by
    unfold rankGroups
    rw [List.map_map, List.map_map]
    rfl
  rw [hgroups, ← List.map_flatten]
  exact (flatten_filter_range_perm (fun n => rankOf nodes edges n.id) nodes _
    (fun x hx =>
      Nat.lt_succ_of_le (rank_le_maxRank nodes edges x hx))).map VNode.id

/-! ## Characterizations of the three builders -/

theorem buildGraphTraces_nodes_eq (cases : List TestCase) :
    (buildGraphTraces cases).1 =
      (dedupByAux Step.page [] (cases.flatMap TestCase.steps)).map
        (mkTraceNode (startPageOf cases)) := by
  show (foldInsert Step.page (mkTraceNode (startPageOf cases)) []
    (cases.flatMap TestCase.steps)).map Prod.snd = _
  exact foldInsert_vals _ _ _

theorem buildGraphTraces_edges_eq (cases : List TestCase) :
    (buildGraphTraces cases).2 =
      (dedupByAux (fun p => mkEdgeId p.1 p.2) []
        (cases.flatMap (fun c => tracePairs c.steps))).map mkPairEdge := by
  show (foldInsert (fun p => mkEdgeId p.1 p.2) mkPairEdge []
    (cases.flatMap (fun c => tracePairs c.steps))).map Prod.snd = _
  exact foldInsert_vals _ _ _

theorem buildGraphA_edges_eq (g : GraphA) :
    (buildGraphA g).2 =
      (dedupByAux (fun e => mkEdgeId e.source e.target) [] g.edges).map
        mkEdgeA := by
  show (foldInsert (fun e => mkEdgeId e.source e.target) mkEdgeA []
    g.edges).map Prod.snd = _
  exact foldInsert_vals _ _ _

theorem buildGraphB_edges_eq (g : GraphB) :
    (buildGraphB g).2 =
      (dedupByAux (fun e => mkEdgeId e.source e.target) [] g.edges).map
        mkEdgeB := by
  show (foldInsert (fun e => mkEdgeId e.source e.target) mkEdgeB []
    g.edges).map Prod.snd = _
  exact foldInsert_vals _ _ _

theorem buildGraphA_node_ids (g : GraphA) :
    ((buildGraphA g).1.map VNode.id) =
      dedupAux [] (g.nodes.map NodeA.id) := by
  have hkeys := foldSet_keys NodeA.id (mkNodeA (startNodeA g)) [] g.nodes
  simp only [List.map_nil, List.nil_append] at hkeys
  have hids : ∀ e ∈ foldSet NodeA.id (mkNodeA (startNodeA g)) [] g.nodes,
      (Prod.snd e).id = e.1 :=
    foldSet_entry_inv _ _ _ _ _ (by intro e he; cases he)
      (fun b _ => rfl)
  show ((foldSet NodeA.id (mkNodeA (startNodeA g)) [] g.nodes).map
    Prod.snd).map VNode.id = _
  rw [← hkeys, List.map_map]
  exact List.map_congr_left (fun e he => hids e he)

theorem buildGraphB_node_ids (g : GraphB) :
    ((buildGraphB g).1.map VNode.id) =
      dedupAux [] (g.nodes.map NodeB.id) := by
  have hkeys := foldSet_keys NodeB.id (mkNodeB (startNodeB g)) [] g.nodes
  simp only [List.map_nil, List.nil_append] at hkeys
  have hids : ∀ e ∈ foldSet NodeB.id (mkNodeB (startNodeB g)) [] g.nodes,
      (Prod.snd e).id = e.1 :=
    foldSet_entry_inv _ _ _ _ _ (by intro e he; cases he)
      (fun b _ => rfl)
  show ((foldSet NodeB.id (mkNodeB (startNodeB g)) [] g.nodes).map
    Prod.snd).map VNode.id = _
  rw [← hkeys, List.map_map]
  exact List.map_congr_left (fun e he => hids e he)

theorem buildGraphTraces_node_ids (cases : List TestCase) :
    ((buildGraphTraces cases).1.map VNode.id) =
      dedupAux [] ((cases.flatMap TestCase.steps).map Step.page) := by
  rw [buildGraphTraces_nodes_eq, List.map_map]
  have : (VNode.id ∘ mkTraceNode (startPageOf cases)) = Step.page := by
    funext s
    rfl
  rw [this]
  exact dedupByAux_map_key _ _ _

/-- `countP` of an equality test over a duplicate-free list containing the
value is exactly one. -/
theorem countP_eq_one_of_nodup_mem (l : List String) (a : String)
    (hnd : l.Nodup) (ha : a ∈ l) :
    l.countP (fun x => decide (x = a)) = 1 := by
  induction l with
  | nil => cases ha
  | cons b bs ih =>
      have hnd' : bs.Nodup := (List.nodup_cons.mp hnd).2
      have hb : b ∉ bs := (List.nodup_cons.mp hnd).1
      rw [List.countP_cons]
      rcases List.mem_cons.mp ha with h | h
      · have hcount : bs.countP (fun x => decide (x = a)) = 0 := by
          rw [List.countP_eq_zero]
          intro x hx
          simp only [decide_eq_true_eq]
          intro hxa
          exact hb ((hxa.trans h) ▸ hx)
        rw [hcount]
        simp [h]
      · have hba : ¬ b = a := fun hc => hb (hc ▸ h)
        rw [ih hnd' h]
        simp [hba]

theorem find?_cons_true {α : Type} (p : α → Bool) (a : α) (l : List α)
    (h : p a = true) : (a :: l).find? p = some a := by
  simp [List.find?_cons, h]

theorem find?_cons_false {α : Type} (p : α → Bool) (a : α) (l : List α)
    (h : p a = false) : (a :: l).find? p = l.find? p := by
  simp [List.find?_cons, h]

/-- `find?` over a first-occurrence key deduplication agrees with `find?`
over the original stream: the first entry of a key survives. -/
theorem dedupByAux_find? {α : Type} (key : α → String) (seen : List String)
    (l : List α) (i : String) :
    (dedupByAux key seen l).find? (fun b => decide (key b = i)) =
      if i ∈ seen then none else l.find? (fun b => decide (key b = i)) := by
  induction l generalizing seen with
  | nil => by_cases h : i ∈ seen <;> simp [dedupByAux, h]
  | cons b bs ih =>
      by_cases hb : key b ∈ seen
      · rw [dedupByAux, if_pos hb, ih]
        by_cases hi : i ∈ seen
        · rw [if_pos hi, if_pos hi]
        · have hne : (fun b => decide (key b = i)) b = false := by
            simp only [decide_eq_false_iff_not]
            exact fun hc => hi (hc ▸ hb)
          rw [if_neg hi, if_neg hi,
            find?_cons_false (fun b => decide (key b = i)) b bs hne]
      · rw [dedupByAux, if_neg hb]
        by_cases hik : i = key b
        · have hi : i ∉ seen := hik ▸ hb
          have hp : (fun b => decide (key b = i)) b = true := by
            simp [hik]
          rw [if_neg hi,
            find?_cons_true (fun b => decide (key b = i)) b _ hp,
            find?_cons_true (fun b => decide (key b = i)) b bs hp]
        · have hne : (fun b => decide (key b = i)) b = false := by
            simp only [decide_eq_false_iff_not]
            exact fun hc => hik hc.symm
          rw [find?_cons_false (fun b => decide (key b = i)) b _ hne, ih]
          by_cases hi : i ∈ seen
          · rw [if_pos (List.mem_cons_of_mem _ hi), if_pos hi]
          · have hi' : i ∉ key b :: seen := by
              intro hc
              rcases List.mem_cons.mp hc with hc | hc
              · exact hik hc
              · exact hi hc
            rw [if_neg hi', if_neg hi,
              find?_cons_false (fun b => decide (key b = i)) b bs hne]

/-- The self-loop guard of the trace builder: every emitted pair has
distinct pages. -/
theorem tracePairs_ne (steps : List Step) :
    ∀ p ∈ tracePairs steps, p.1 ≠ p.2 := by
  induction steps with
  | nil => intro p hp; cases hp
  | cons s rest ih =>
      cases rest with
      | nil => intro p hp; cases hp
      | cons t rest2 =>
          intro p hp
          rw [tracePairs] at hp
          rcases List.mem_append.mp hp with h | h
          · by_cases hne : t.page ≠ s.page
            · rw [if_pos hne] at h
              have hps := List.mem_singleton.mp h
              rw [hps]
              exact fun hc => hne hc.symm
            · rw [if_neg hne] at h
              cases h
          · exact ih p h

/-- The `forEach` loop of the highlight resolver adds exactly the ids of
the consecutive pairs whose successor is a non-empty string. -/
theorem hlEdgeIds_eq (path : List String) :
    hlEdgeIds path =
      ((consecPairs path).filter (fun p => decide (p.2 ≠ ""))).map
        (fun p => mkEdgeId p.1 p.2) := by
  induction path with
  | nil => rfl
  | cons a rest ih =>
      cases rest with
      | nil => rfl
      | cons b rest2 =>
          rw [hlEdgeIds, consecPairs, List.filter_cons]
          by_cases hb : b ≠ ""
          · rw [if_pos hb, if_pos (by simpa using hb), List.map_cons, ih]
            rfl
          · rw [if_neg hb, if_neg (by simpa using hb), ih]
            rfl

theorem buildGraphTraces_edge_ids (cases : List TestCase) :
    ((buildGraphTraces cases).2.map VEdge.id) =
      dedupAux []
        ((cases.flatMap (fun c => tracePairs c.steps)).map
          (fun p => mkEdgeId p.1 p.2)) := by
  rw [buildGraphTraces_edges_eq, List.map_map]
  have : (VEdge.id ∘ mkPairEdge) = fun p : String × String =>
      mkEdgeId p.1 p.2 := by
    funext p
    rfl
  rw [this]
  exact dedupByAux_map_key _ _ _

theorem buildGraphA_edge_ids (g : GraphA) :
    ((buildGraphA g).2.map VEdge.id) =
      dedupAux [] (g.edges.map (fun e => mkEdgeId e.source e.target)) := by
  rw [buildGraphA_edges_eq, List.map_map]
  have : (VEdge.id ∘ mkEdgeA) = fun e : EdgeA =>
      mkEdgeId e.source e.target := by
    funext e
    rfl
  rw [this]
  exact dedupByAux_map_key _ _ _

theorem buildGraphB_edge_ids (g : GraphB) :
    ((buildGraphB g).2.map VEdgeL.id) =
      dedupAux [] (g.edges.map (fun e => mkEdgeId e.source e.target)) := by
  rw [buildGraphB_edges_eq, List.map_map]
  have : (VEdgeL.id ∘ mkEdgeB) = fun e : EdgeB =>
      mkEdgeId e.source e.target := by
    funext e
    rfl
  rw [this]
  exact dedupByAux_map_key _ _ _

/-- Exactly one start node among the values of an unconditional-`set` node
map, provided the designated id is a key of the stream. -/
theorem foldSet_start_count {β : Type} (key : β → String) (mkN : β → VNode)
    (l : List β) (id₀ : String)
    (hstart : ∀ b, (mkN b).isStart = true ↔ key b = id₀)
    (hid : id₀ ∈ l.map key) :
    ((foldSet key mkN [] l).map Prod.snd).countP VNode.isStart = 1 := by
  have hinv : ∀ e ∈ foldSet key mkN [] l,
      (fun e : String × VNode => e.2.isStart = true ↔ e.1 = id₀) e :=
    foldSet_entry_inv key mkN [] l _ (by intro e he; cases he)
      (fun b _ => hstart b)
  have hkeys := foldSet_keys key mkN [] l
  simp only [List.map_nil, List.nil_append] at hkeys
  have hnd : ((foldSet key mkN [] l).map Prod.fst).Nodup := by
    rw [hkeys]
    exact dedupAux_nodup _ _
  have hmem : id₀ ∈ (foldSet key mkN [] l).map Prod.fst := by
    rw [hkeys]
    exact mem_dedupAux_of_mem [] _ id₀ hid (by simp)
  rw [countP_vals_eq_one _ VNode.isStart id₀ hinv hnd, if_pos hmem]

/-- Exactly one start node among the values of an insert-if-absent node
map, provided the designated id is a key of the stream. -/
theorem foldInsert_start_count {β : Type} (key : β → String)
    (mkN : β → VNode) (l : List β) (id₀ : String)
    (hstart : ∀ b, (mkN b).isStart = true ↔ key b = id₀)
    (hid : id₀ ∈ l.map key) :
    ((foldInsert key mkN [] l).map Prod.snd).countP VNode.isStart = 1 := by
  have hinv : ∀ e ∈ foldInsert key mkN [] l,
      (fun e : String × VNode => e.2.isStart = true ↔ e.1 = id₀) e := by
    intro e he
    rw [foldInsert_eq] at he
    simp only [List.map_nil, List.nil_append] at he
    rcases List.mem_map.mp he with ⟨b, _, hbe⟩
    rw [← hbe]
    exact hstart b
  have hkeys := foldInsert_keys key mkN l
  have hnd : ((foldInsert key mkN [] l).map Prod.fst).Nodup := by
    rw [hkeys]
    exact dedupAux_nodup _ _
  have hmem : id₀ ∈ (foldInsert key mkN [] l).map Prod.fst := by
    rw [hkeys]
    exact mem_dedupAux_of_mem [] _ id₀ hid (by simp)
  rw [countP_vals_eq_one _ VNode.isStart id₀ hinv hnd, if_pos hmem]

/-! ## The claims -/

/-- Concrete graph for the C1 counterexample: one node `A`, no edges. -/
def c1Graph : GraphA := { nodes := [{ id := "A", label := "A" }], edges := [] }

/-- C1 counterexample: `buildHighlightSet` receives only the path and never
consults the graph, so for the graph with the single node `A` and no edges
the path `["B", "C"]` yields a highlighted node id `B` that is not a node
id of the graph, and a highlighted edge id `B->C` although the graph has no
edges at all — the raw resolver sets are not subsets of the graph. -/
theorem c1_highlight_raw_sets_not_subsets :
    "B" ∈ (buildHighlightSet ["B", "C"]).nodeIds ∧
    "B" ∉ ((buildGraphA c1Graph).1.map VNode.id) ∧
    mkEdgeId "B" "C" ∈ (buildHighlightSet ["B", "C"]).edgeIds ∧
    (buildGraphA c1Graph).2 = [] := by decide

/-- C1 (amended): the resolver's raw sets are `set(path)` and the truthy
consecutive-pair ids, independent of the graph; the subset property holds
for the elements that are actually emphasized — at render time the
highlight is applied by membership tests over the base graph, so every
emphasized node id is a node id of the graph and every emphasized edge id
is an edge id of the graph; the empty path yields two empty sets. -/
theorem c1_highlight_render_soundness :
    ∀ (g : GraphA) (path : List String),
      (∀ i ∈ emphasizedNodeIds g path, i ∈ (buildGraphA g).1.map VNode.id) ∧
      (∀ i ∈ emphasizedEdgeIds g path, i ∈ (buildGraphA g).2.map VEdge.id) ∧
      (buildHighlightSet []).nodeIds = [] ∧
      (buildHighlightSet []).edgeIds = [] := by
  intro g path
  refine ⟨?_, ?_, rfl, rfl⟩
  · intro i hi
    rcases List.mem_map.mp hi with ⟨n, hn, hni⟩
    exact hni ▸ List.mem_map.mpr ⟨n, (List.mem_filter.mp hn).1, rfl⟩
  · intro i hi
    rcases List.mem_map.mp hi with ⟨e, he, hei⟩
    exact hei ▸ List.mem_map.mpr ⟨e, (List.mem_filter.mp he).1, rfl⟩

/-- Concrete graph for the C1 witness. -/
def c1WitnessGraph : GraphA :=
  { nodes := [{ id := "A", label := "A" }, { id := "B", label := "B" }],
    edges := [{ source := "A", target := "B" }] }

theorem c1_highlight_render_soundness_witness :
    "A" ∈ (buildGraphA c1WitnessGraph).1.map VNode.id ∧
    "A->B" ∈ (buildGraphA c1WitnessGraph).2.map VEdge.id :=
  ⟨(c1_highlight_render_soundness c1WitnessGraph ["A", "B"]).1 "A" (by decide),
   (c1_highlight_render_soundness c1WitnessGraph ["A", "B"]).2.1 "A->B"
     (by decide)⟩

/-- C2 (amended): the trace-list builder never creates a self-loop edge —
the guard `next.page !== step.page` coalesces consecutive steps at the same
location, so every built edge has distinct source and target. (The
explicit-record builders copy input edges verbatim, including self-loops;
see the counterexample.) -/
theorem c2_trace_no_self_loops :
    ∀ (cases : List TestCase) (e : VEdge),
      e ∈ (buildGraphTraces cases).2 → e.source ≠ e.target := by
  intro cases e he
  rw [buildGraphTraces_edges_eq] at he
  rcases List.mem_map.mp he with ⟨p, hp, hpe⟩
  have hmem : p ∈ cases.flatMap (fun c => tracePairs c.steps) :=
    dedupByAux_subset _ _ _ p hp
  rcases List.mem_flatMap.mp hmem with ⟨c, _, hpc⟩
  have hne := tracePairs_ne c.steps p hpc
  rw [← hpe]
  exact hne

theorem c2_trace_no_self_loops_witness :
    ("/login" : String) ≠ "/dashboard" :=
  c2_trace_no_self_loops
    [⟨"T", "Walk", [⟨1, "/login", "navigate"⟩, ⟨2, "/dashboard", "redirect"⟩]⟩]
    ⟨mkEdgeId "/login" "/dashboard", "/login", "/dashboard"⟩ (by decide)

/-- Concrete graph for the C2 counterexample: an explicit record with a
self-loop edge `A -> A`. -/
def c2Graph : GraphA :=
  { nodes := [{ id := "A", label := "A" }],
    edges := [{ source := "A", target := "A" }] }

/-- C2 counterexample: the explicit-record builder has no self-loop guard;
the input edge `(A, A)` survives into the built graph as an edge whose
source equals its target. -/
theorem c2_explicit_self_loop_created :
    ∃ e ∈ (buildGraphA c2Graph).2, e.source = e.target := by decide

/-- Concrete graph for the C3 counterexample: no nodes, one edge. -/
def c3Graph : GraphA :=
  { nodes := [], edges := [{ source := "A", target := "B" }] }

/-- C3 counterexample: the builder performs no referential check — the edge
`A -> B` whose endpoints name no node of the (empty) node list appears in
the output edge set instead of being dropped. -/
theorem c3_dangling_edge_retained :
    ((buildGraphA c3Graph).2.map VEdge.id) = ["A->B"] ∧
    (buildGraphA c3Graph).1 = [] := by decide

/-- C3 (amended): the explicit-record builder keeps every input edge
(first occurrence per id) regardless of whether its endpoints name nodes —
the output edge ids are exactly the first-occurrence deduplication of the
input edge ids, computed without consulting the node list; it never fails;
and an input with zero nodes yields an empty node list and no start
node. -/
theorem c3_edges_kept_and_empty_graph :
    ∀ g : GraphA,
      ((buildGraphA g).2.map VEdge.id) =
        dedupAux [] (g.edges.map (fun e => mkEdgeId e.source e.target)) ∧
      (g.nodes = [] → (buildGraphA g).1 = [] ∧ startNodeA g = none) := by
  intro g
  refine ⟨buildGraphA_edge_ids g, ?_⟩
  intro h
  constructor
  · have hids := buildGraphA_node_ids g
    rw [h] at hids
    simp only [List.map_nil, dedupAux] at hids
    exact List.map_eq_nil_iff.mp hids
  · rw [startNodeA, h]
    rfl

/-- Concrete graph for the C3 witness. -/
def c3WitnessGraph : GraphA :=
  { nodes := [], edges := [{ source := "X", target := "Y" }] }

theorem c3_edges_kept_and_empty_graph_witness :
    ((buildGraphA c3WitnessGraph).2.map VEdge.id) = ["X->Y"] ∧
    (buildGraphA c3WitnessGraph).1 = [] ∧
    startNodeA c3WitnessGraph = none :=
  ⟨((c3_edges_kept_and_empty_graph c3WitnessGraph).1).trans (by decide),
   ((c3_edges_kept_and_empty_graph c3WitnessGraph).2 rfl).1,
   ((c3_edges_kept_and_empty_graph c3WitnessGraph).2 rfl).2⟩

/-- C10: in the highlight resolver the `if (next)` truthiness guard drops
every consecutive pair whose successor is the empty string — the edge-id
set is exactly the (deduplicated) ids of the consecutive pairs with a
non-empty successor — while `new Set(path)` keeps every path element as a
highlighted node id, the empty string included. -/
theorem c10_empty_successor_guard :
    ∀ path : List String,
      (buildHighlightSet path).edgeIds =
        dedupAux []
          (((consecPairs path).filter (fun p => decide (p.2 ≠ ""))).map
            (fun p => mkEdgeId p.1 p.2)) ∧
      (∀ s ∈ path, s ∈ (buildHighlightSet path).nodeIds) := by
  intro path
  refine ⟨?_, ?_⟩
  · show dedupAux [] (hlEdgeIds path) = _
    rw [hlEdgeIds_eq]
  · intro s hs
    exact mem_dedupAux_of_mem [] path s hs (by simp)

theorem c10_empty_successor_guard_witness :
    (buildHighlightSet ["a", "", "b"]).edgeIds = ["->b"] ∧
    "" ∈ (buildHighlightSet ["a", "", "b"]).nodeIds :=
  ⟨((c10_empty_successor_guard ["a", "", "b"]).1).trans (by decide),
   (c10_empty_successor_guard ["a", "", "b"]).2 "" (by decide)⟩

/-- C4 (amended): every builder produces nodes with pairwise-distinct ids;
exactly one node carries the start styling whenever the start reference
resolves — for the explicit-record builders whenever the node list is
non-empty, for the trace builder whenever `cases[0]?.steps[0]?.page` is
defined (the first trace is non-empty). When the first trace is empty the
start reference is `undefined` and no node is marked start, even if later
traces make the graph non-empty (see the counterexample). -/
theorem c4_unique_ids_one_start :
    (∀ cases : List TestCase,
      ((buildGraphTraces cases).1.map VNode.id).Nodup ∧
      ((startPageOf cases).isSome →
        (buildGraphTraces cases).1.countP VNode.isStart = 1) ∧
      (startPageOf cases = none →
        (buildGraphTraces cases).1.countP VNode.isStart = 0)) ∧
    (∀ g : GraphA,
      ((buildGraphA g).1.map VNode.id).Nodup ∧
      (g.nodes ≠ [] → (buildGraphA g).1.countP VNode.isStart = 1)) ∧
    (∀ g : GraphB,
      ((buildGraphB g).1.map VNode.id).Nodup ∧
      (g.nodes ≠ [] → (buildGraphB g).1.countP VNode.isStart = 1)) := by
  refine ⟨?_, ?_, ?_⟩
  · intro cases
    refine ⟨?_, ?_, ?_⟩
    · rw [buildGraphTraces_node_ids]
      exact dedupAux_nodup _ _
    · intro hsome
      match hcs : cases with
      | [] => simp [startPageOf] at hsome
      | c :: t =>
          match hst : c.steps with
          | [] => simp [startPageOf, hst] at hsome
          | s :: ss =>
              have hsp : startPageOf (c :: t) = some s.page := by
                simp [startPageOf, hst]
              show ((foldInsert Step.page
                (mkTraceNode (startPageOf (c :: t))) []
                ((c :: t).flatMap TestCase.steps)).map Prod.snd).countP
                  VNode.isStart = 1
              rw [hsp]
              refine foldInsert_start_count Step.page
                (mkTraceNode (some s.page)) _ s.page ?_ ?_
              · intro b
                simp only [mkTraceNode, decide_eq_true_eq, Option.some.injEq]
                exact eq_comm
              · have hs : s ∈ (c :: t).flatMap TestCase.steps :=
                  List.mem_flatMap.mpr
                    ⟨c, List.mem_cons_self _ _,
                      by rw [hst]; exact List.mem_cons_self _ _⟩
                exact List.mem_map.mpr ⟨s, hs, rfl⟩
    · intro hnone
      show ((foldInsert Step.page (mkTraceNode (startPageOf cases)) []
        (cases.flatMap TestCase.steps)).map Prod.snd).countP
          VNode.isStart = 0
      rw [hnone]
      refine countP_vals_eq_zero _ _ ?_
      intro e he
      rw [foldInsert_eq] at he
      simp only [List.map_nil, List.nil_append] at he
      rcases List.mem_map.mp he with ⟨b, _, hbe⟩
      rw [← hbe]
      simp [mkTraceNode]
  · intro g
    refine ⟨?_, ?_⟩
    · rw [buildGraphA_node_ids]
      exact dedupAux_nodup _ _
    · intro h
      match hn : g.nodes with
      | [] => exact absurd hn h
      | n :: t =>
          have hstart : startNodeA g = some n.id := by
            rw [startNodeA, hn]
            rfl
          show ((foldSet NodeA.id (mkNodeA (startNodeA g)) []
            g.nodes).map Prod.snd).countP VNode.isStart = 1
          rw [hstart]
          refine foldSet_start_count NodeA.id (mkNodeA (some n.id)) _
            n.id ?_ ?_
          · intro b
            simp only [mkNodeA, decide_eq_true_eq, Option.some.injEq]
            exact eq_comm
          · rw [hn]
            exact List.mem_map.mpr ⟨n, List.mem_cons_self _ _, rfl⟩
  · intro g
    refine ⟨?_, ?_⟩
    · rw [buildGraphB_node_ids]
      exact dedupAux_nodup _ _
    · intro h
      have hex : ∃ id₀, startNodeB g = some id₀ ∧
          id₀ ∈ g.nodes.map NodeB.id := by
        cases hf : g.nodes.find? entryTruthy with
        | some n =>
            exact ⟨n.id, by simp [startNodeB, hf],
              List.mem_map.mpr ⟨n, List.mem_of_find?_eq_some hf, rfl⟩⟩
        | none =>
            match hn : g.nodes with
            | [] => exact absurd hn h
            | n :: t =>
                refine ⟨n.id, ?_, ?_⟩
                · rw [hn] at hf
                  simp [startNodeB, hn, hf]
                · exact List.mem_map.mpr ⟨n, List.mem_cons_self _ _, rfl⟩
      rcases hex with ⟨id₀, hstart, hid⟩
      show ((foldSet NodeB.id (mkNodeB (startNodeB g)) []
        g.nodes).map Prod.snd).countP VNode.isStart = 1
      rw [hstart]
      refine foldSet_start_count NodeB.id (mkNodeB (some id₀)) _ id₀ ?_ hid
      intro b
      simp only [mkNodeB, decide_eq_true_eq, Option.some.injEq]
      exact eq_comm

/-- Trace input for the C4 counterexample: the first trace has no steps,
the second contributes the node `A`. -/
def c4Cases : List TestCase :=
  [⟨"T1", "Empty", []⟩, ⟨"T2", "Walk", [⟨1, "A", "navigate"⟩]⟩]

/-- C4 counterexample: with an empty first trace the built graph is
non-empty (it has node `A`) yet no node at all is marked start — the claim
that every non-empty input yields exactly one `isStart` node fails. -/
theorem c4_empty_first_trace_no_start :
    (buildGraphTraces c4Cases).1 ≠ [] ∧
    (buildGraphTraces c4Cases).1.countP VNode.isStart = 0 := by decide

def c4TraceWitness : List TestCase := [⟨"T", "W", [⟨1, "P", "a"⟩]⟩]

def c4GraphAWitness : GraphA :=
  { nodes := [{ id := "N", label := "N" }], edges := [] }

def c4GraphBWitness : GraphB := ⟨"e", "p", "v", [⟨"M", "M", []⟩], []⟩

theorem c4_unique_ids_one_start_witness :
    (buildGraphTraces c4TraceWitness).1.countP VNode.isStart = 1 ∧
    (buildGraphA c4GraphAWitness).1.countP VNode.isStart = 1 ∧
    (buildGraphB c4GraphBWitness).1.countP VNode.isStart = 1 :=
  ⟨(c4_unique_ids_one_start.1 c4TraceWitness).2.1 (by decide),
   (c4_unique_ids_one_start.2.1 c4GraphAWitness).2 (by decide),
   (c4_unique_ids_one_start.2.2 c4GraphBWitness).2 (by decide)⟩

/-- C5: the explicit builder of `src/unnamed/part_001` resolves the start
node to the node whose metadata declares it an entry point when such a node
exists (here stated for a uniquely-flagged node, which becomes the start
node regardless of its position in the list), and falls back to the first
node in input order when no node is flagged. -/
theorem c5_entry_point_start :
    ∀ g : GraphB,
      (∀ n ∈ g.nodes, entryTruthy n = true →
        (∀ m ∈ g.nodes, entryTruthy m = true → m.id = n.id) →
        startNodeB g = some n.id) ∧
      ((∀ n ∈ g.nodes, entryTruthy n = false) →
        startNodeB g = g.nodes.head?.map NodeB.id) := by
  intro g
  constructor
  · intro n hn hentry huniq
    cases hf : g.nodes.find? entryTruthy with
    | none =>
        exact absurd hentry (by simpa using List.find?_eq_none.mp hf n hn)
    | some m =>
        have hm : entryTruthy m = true := List.find?_some hf
        have hmem : m ∈ g.nodes := List.mem_of_find?_eq_some hf
        have hid : m.id = n.id := huniq m hmem hm
        simp [startNodeB, hf, hid]
  · intro hforall
    have hf : g.nodes.find? entryTruthy = none :=
      List.find?_eq_none.mpr (fun x hx => by simp [hforall x hx])
    simp [startNodeB, hf]

/-- The flagged node of the C5 witness, second in input order. -/
def c5Node : NodeB := ⟨"X", "X", [("entryPoint", MetaVal.bool true)]⟩

/-- Graph for the C5 witness: `Y` first and unflagged, `X` second and
flagged as entry point. -/
def c5Graph : GraphB := ⟨"e", "p", "v", [⟨"Y", "Y", []⟩, c5Node], []⟩

theorem c5_entry_point_start_witness : startNodeB c5Graph = some "X" :=
  (c5_entry_point_start c5Graph).1 c5Node (by decide) (by decide) (by decide)

/-- Two edges of a duplicate-free-id edge list whose ids are the canonical
pair encoding are equal as soon as their pairs agree. -/
theorem edges_unique_of (es : List VEdge) (hnd : (es.map VEdge.id).Nodup)
    (hfmt : ∀ e ∈ es, e.id = mkEdgeId e.source e.target) :
    ∀ e₁ ∈ es, ∀ e₂ ∈ es,
      e₁.source = e₂.source → e₁.target = e₂.target → e₁ = e₂ := by
  intro e₁ h₁ e₂ h₂ hs ht
  refine List.inj_on_of_nodup_map hnd h₁ h₂ ?_
  rw [hfmt e₁ h₁, hfmt e₂ h₂, hs, ht]

/-- A duplicate-free-id edge list counts exactly one edge per id it
contains. -/
theorem edges_countP_one (es : List VEdge) (i : String)
    (hnd : (es.map VEdge.id).Nodup) (hmem : i ∈ es.map VEdge.id) :
    es.countP (fun e => decide (e.id = i)) = 1 := by
  have h := countP_eq_one_of_nodup_mem (es.map VEdge.id) i hnd hmem
  rw [List.countP_map] at h
  exact h

/-- C6: every builder yields at most one edge per distinct
`(source, target)` pair — distinct built edges never share a pair — every
built edge's id is the canonical `source ++ "->" ++ target`, and every
transition observed in the input (consecutive distinct pages of a trace,
or an explicit input edge) is represented by exactly one built edge whose
id is its pair's encoding, however often it repeats within a trace, across
traces, or as duplicate entries of an explicit edge list. -/
theorem c6_edge_dedup :
    (∀ cases : List TestCase,
      (∀ e₁ ∈ (buildGraphTraces cases).2, ∀ e₂ ∈ (buildGraphTraces cases).2,
        e₁.source = e₂.source → e₁.target = e₂.target → e₁ = e₂) ∧
      (∀ e ∈ (buildGraphTraces cases).2,
        e.id = mkEdgeId e.source e.target) ∧
      (∀ s t : String,
        (s, t) ∈ cases.flatMap (fun c => tracePairs c.steps) →
        (buildGraphTraces cases).2.countP
          (fun e => decide (e.id = mkEdgeId s t)) = 1)) ∧
    (∀ g : GraphA,
      (∀ e₁ ∈ (buildGraphA g).2, ∀ e₂ ∈ (buildGraphA g).2,
        e₁.source = e₂.source → e₁.target = e₂.target → e₁ = e₂) ∧
      (∀ e ∈ (buildGraphA g).2, e.id = mkEdgeId e.source e.target) ∧
      (∀ e ∈ g.edges,
        (buildGraphA g).2.countP
          (fun e2 => decide (e2.id = mkEdgeId e.source e.target)) = 1)) := by
  constructor
  · intro cases
    have hnd : ((buildGraphTraces cases).2.map VEdge.id).Nodup := by
      rw [buildGraphTraces_edge_ids]
      exact dedupAux_nodup _ _
    have hfmt : ∀ e ∈ (buildGraphTraces cases).2,
        e.id = mkEdgeId e.source e.target := by
      intro e he
      rw [buildGraphTraces_edges_eq] at he
      rcases List.mem_map.mp he with ⟨p, _, hpe⟩
      rw [← hpe]
      rfl
    refine ⟨edges_unique_of _ hnd hfmt, hfmt, ?_⟩
    intro s t hst
    refine edges_countP_one _ _ hnd ?_
    rw [buildGraphTraces_edge_ids]
    refine mem_dedupAux_of_mem [] _ _ ?_ (by simp)
    exact List.mem_map.mpr ⟨(s, t), hst, rfl⟩
  · intro g
    have hnd : ((buildGraphA g).2.map VEdge.id).Nodup := by
      rw [buildGraphA_edge_ids]
      exact dedupAux_nodup _ _
    have hfmt : ∀ e ∈ (buildGraphA g).2,
        e.id = mkEdgeId e.source e.target := by
      intro e he
      rw [buildGraphA_edges_eq] at he
      rcases List.mem_map.mp he with ⟨b, _, hbe⟩
      rw [← hbe]
      rfl
    refine ⟨edges_unique_of _ hnd hfmt, hfmt, ?_⟩
    intro e he
    refine edges_countP_one _ _ hnd ?_
    rw [buildGraphA_edge_ids]
    refine mem_dedupAux_of_mem [] _ _ ?_ (by simp)
    exact List.mem_map.mpr ⟨e, he, rfl⟩

/-- Trace input for the C6 witness: both traces contain the transition
`A -> B`. -/
def c6Cases : List TestCase :=
  [⟨"T1", "One", [⟨1, "A", "go"⟩, ⟨2, "B", "go"⟩]⟩,
   ⟨"T2", "Two", [⟨1, "A", "go"⟩, ⟨2, "B", "go"⟩]⟩]

/-- Explicit input for the C6 witness: the edge `(A, B)` appears twice. -/
def c6Graph : GraphA :=
  { nodes := [{ id := "A", label := "A" }, { id := "B", label := "B" }],
    edges := [{ source := "A", target := "B" },
      { source := "A", target := "B" }] }

theorem c6_edge_dedup_witness :
    (buildGraphTraces c6Cases).2.countP
      (fun e => decide (e.id = mkEdgeId "A" "B")) = 1 ∧
    (buildGraphA c6Graph).2.countP
      (fun e2 => decide (e2.id = mkEdgeId "A" "B")) = 1 :=
  ⟨(c6_edge_dedup.1 c6Cases).2.2 "A" "B" (by decide),
   (c6_edge_dedup.2 c6Graph).2.2 ⟨"A", "B"⟩ (by decide)⟩

/-- C7: the builders and the layout are pure deterministic functions of
their input — two calls on the same input are equal — and the node order
each builder produces is pinned to first-occurrence order of the input
ids, so node order, edge set and start-node choice cannot differ between
runs. The layout half concerns the spec-modelled layered engine
(`layoutCenters`/`createLayout`): identical graphs receive identical
positions. -/
theorem c7_determinism :
    (∀ cases : List TestCase,
      buildGraphTraces cases = buildGraphTraces cases ∧
      ((buildGraphTraces cases).1.map VNode.id) =
        dedupAux [] ((cases.flatMap TestCase.steps).map Step.page)) ∧
    (∀ g : GraphA,
      buildGraphA g = buildGraphA g ∧
      ((buildGraphA g).1.map VNode.id) =
        dedupAux [] (g.nodes.map NodeA.id)) ∧
    (∀ g : GraphB, buildGraphB g = buildGraphB g) ∧
    (∀ (nodes : List VNode) (edges : List VEdge),
      createLayout nodes edges = createLayout nodes edges ∧
      layoutCenters nodes edges = layoutCenters nodes edges) :=
  ⟨fun cases => ⟨rfl, buildGraphTraces_node_ids cases⟩,
   fun g => ⟨rfl, buildGraphA_node_ids g⟩,
   fun _ => rfl,
   fun _ _ => ⟨rfl, rfl⟩⟩

/-- C8 (spec-modelled layout): for every canonical graph (duplicate-free
node ids), any two placed nodes of the same rank and different ids are
vertically separated by more than the node extent — their secondary-axis
spans `center ± nodeHeight/2` do not intersect, since
`p.y + nodeHeight < q.y` is `p.y + nodeHeight/2 < q.y - nodeHeight/2` —
and every node receives exactly one position: the placed ids are a
permutation of the graph's node ids, without duplicates. -/
theorem c8_layout_no_overlap :
    ∀ (nodes : List VNode) (edges : List VEdge),
      (nodes.map VNode.id).Nodup →
      (∀ p ∈ layoutCenters nodes edges, ∀ q ∈ layoutCenters nodes edges,
        p.id ≠ q.id →
        rankOf nodes edges p.id = rankOf nodes edges q.id →
        p.y + nodeHeight < q.y ∨ q.y + nodeHeight < p.y) ∧
      List.Perm ((layoutCenters nodes edges).map Placed.id)
        (nodes.map VNode.id) ∧
      ((layoutCenters nodes edges).map Placed.id).Nodup := by
  intro nodes edges hnd
  refine ⟨?_, layoutCenters_ids_perm nodes edges, ?_⟩
  · intro p hp q hq hne hrk
    exact layoutCenters_sep nodes edges p q hp hq hne hrk
  · exact ((layoutCenters_ids_perm nodes edges).nodup_iff).mpr hnd

/-- Nodes for the C8 witness: a fork `A -> B`, `A -> C` putting `B` and
`C` in the same rank. -/
def c8Nodes : List VNode :=
  [⟨"A", "A", true⟩, ⟨"B", "B", false⟩, ⟨"C", "C", false⟩]

def c8Edges : List VEdge := [⟨"A->B", "A", "B"⟩, ⟨"A->C", "A", "C"⟩]

theorem c8_layout_no_overlap_witness :
    ((24 : Int) + nodeHeight < 104 ∨ (104 : Int) + nodeHeight < 24) ∧
    List.Perm ((layoutCenters c8Nodes c8Edges).map Placed.id)
      (c8Nodes.map VNode.id) :=
  ⟨(c8_layout_no_overlap c8Nodes c8Edges (by decide)).1
      ⟨"B", 318, 24⟩ (by decide) ⟨"C", 318, 104⟩ (by decide)
      (by decide) (by decide),
   (c8_layout_no_overlap c8Nodes c8Edges (by decide)).2.1⟩

/-- Explicit record for the C9 counterexample: the first edge's
concatenated id `"a->b" ++ "->" ++ "c"` collides with the id of the later
pair `("a", "b->c")`, which appears twice. -/
def c9Graph : GraphB :=
  ⟨"env", "guest", "v1", [],
    [⟨"a->b", "c", "t", "L1"⟩, ⟨"a", "b->c", "t", "L2"⟩,
      ⟨"a", "b->c", "t", "L3"⟩]⟩

/-- C9 counterexample: two input edges share the pair `("a", "b->c")`, yet
no built edge with that source and target survives at all, and the single
built edge (id `"a->b->c"`) carries the label `L1` of the earlier
different-pair edge `("a->b", "c")` — not the label `L2` of the first edge
of the duplicated pair, refuting per-pair first-write-wins as stated. -/
theorem c9_pair_merge_counterexample :
    c9Graph.edges.countP
      (fun e => decide (e.source = "a" ∧ e.target = "b->c")) = 2 ∧
    ((buildGraphB c9Graph).2.map VEdgeL.label) = ["L1"] ∧
    (buildGraphB c9Graph).2.countP
      (fun e => decide (e.source = "a" ∧ e.target = "b->c")) = 0 := by
  decide

/-- C9 (amended): the merge policy is first-write-wins keyed by the edge
ID `source ++ "->" ++ target` (which coincides with per-pair first-write-
wins whenever distinct pairs have distinct encodings, e.g. when no
source or target contains `"->"`): for every id, the built edge found
under that id is exactly the image — source, target, label and styling —
of the first input edge whose encoding is that id, and built edge ids are
duplicate-free, so all later duplicates are ignored entirely rather than
merged. -/
theorem c9_first_write_wins_by_id :
    ∀ (g : GraphB) (i : String),
      (buildGraphB g).2.find? (fun e => decide (e.id = i)) =
        (g.edges.find?
          (fun e => decide (mkEdgeId e.source e.target = i))).map mkEdgeB ∧
      ((buildGraphB g).2.map VEdgeL.id).Nodup := by
  intro g i
  constructor
  · rw [buildGraphB_edges_eq, List.find?_map]
    have hcomp : ((fun e : VEdgeL => decide (e.id = i)) ∘ mkEdgeB) =
        fun e : EdgeB => decide (mkEdgeId e.source e.target = i) := by
      funext e
      rfl
    rw [hcomp, dedupByAux_find?]
    simp
  · rw [buildGraphB_edge_ids]
    exact dedupAux_nodup _ _

end AppGraph
